import Mathlib

/-!
Verification development for the Syosetu novel scraper.

The Python sources (site_parsers.py, translator.py, main.py) are shallowly
embedded below.  Python strings are modelled as `List Char` (`Str`), Python
`str.replace` as `replaceList`, `str.strip()` as `pyStrip`, `'\n\n'.join`
as `joinSep`, and exceptions of provider calls as `Except Unit`.
-/

namespace Syosetu

/-- Python strings, modelled as lists of characters. -/
abbrev Str := List Char

/-- Coerce a Lean string literal to the `List Char` model. -/
def str (s : String) : Str := s.data

/-- ASCII approximation of Python `str.isspace` on a single character. -/
def isPySpace (c : Char) : Bool :=
  c = ' ' || c = '\t' || c = '\n' || c = '\r' || c = '\x0b' || c = '\x0c'

/-- Python `str.strip()`: drop whitespace from both ends. -/
def pyStrip (t : Str) : Str :=
  ((t.dropWhile isPySpace).reverse.dropWhile isPySpace).reverse

/-- The paragraph separator `'\n\n'` used throughout site_parsers.py. -/
def sep : Str := str "\n\n"

/-- Python `'\n\n'.join(parts)` (site_parsers.py chunk assembly). -/
def joinSep : List Str → Str
  | [] => []
  | [c] => c
  | c :: cs => c ++ sep ++ joinSep cs

/-- `joinSep` on a cons with a nonempty tail. -/
theorem joinSep_cons (c : Str) (cs : List Str) (h : cs ≠ []) :
    joinSep (c :: cs) = c ++ sep ++ joinSep cs := by
  cases cs with
  | nil => exact absurd rfl h
  | cons d ds => rfl

/-- `joinSep` distributes over append of nonempty lists. -/
theorem joinSep_append (a b : List Str) (ha : a ≠ []) (hb : b ≠ []) :
    joinSep (a ++ b) = joinSep a ++ sep ++ joinSep b := by
  induction a with
  | nil => exact absurd rfl ha
  | cons x xs ih =>
    cases xs with
    | nil =>
      cases b with
      | nil => exact absurd rfl hb
      | cons y ys => simp [joinSep_cons _ _ hb, joinSep]
    | cons z zs =>
      have hxs : (z :: zs : List Str) ≠ [] := by simp
      have h1 : ((z :: zs) ++ b : List Str) ≠ [] := by simp
      rw [List.cons_append, joinSep_cons _ _ h1, ih hxs, joinSep_cons _ _ hxs]
      simp [List.append_assoc]

/-!
## The chunker (site_parsers.py, parse_chapter_content, lines 244-262)

```python
current_chunk = []
current_length = 0
chunk_limit = 1000
for paragraph in paragraphs:
    if current_length + len(paragraph) + 2 > chunk_limit and current_chunk:
        chunks.append('\n\n'.join(current_chunk))
        current_chunk = []
        current_length = 0
    current_chunk.append(paragraph)
    current_length += len(paragraph) + 2
if current_chunk:
    chunks.append('\n\n'.join(current_chunk))
```

`chunkParasAux` is the loop itself (emitting joined chunks, as the code
does); `chunkGroupsAux` is the same loop emitting the raw paragraph groups,
used to reason about which paragraphs land in which chunk.
-/

/-- The chunking loop, emitting joined chunks exactly as the Python code. -/
def chunkParasAux (limit : Nat) : List Str → List Str → Nat → List Str
  | [], cur, _ => if cur.isEmpty then [] else [joinSep cur]
  | p :: rest, cur, curLen =>
    if limit < curLen + p.length + 2 && !cur.isEmpty then
      joinSep cur :: chunkParasAux limit rest [p] (p.length + 2)
    else
      chunkParasAux limit rest (cur ++ [p]) (curLen + p.length + 2)

/-- The same loop, emitting the paragraph groups instead of joined chunks. -/
def chunkGroupsAux (limit : Nat) : List Str → List Str → Nat → List (List Str)
  | [], cur, _ => if cur.isEmpty then [] else [cur]
  | p :: rest, cur, curLen =>
    if limit < curLen + p.length + 2 && !cur.isEmpty then
      cur :: chunkGroupsAux limit rest [p] (p.length + 2)
    else
      chunkGroupsAux limit rest (cur ++ [p]) (curLen + p.length + 2)

/-- The chunker as invoked by the parsers (initial state empty). -/
def chunkParagraphs (limit : Nat) (paras : List Str) : List Str :=
  chunkParasAux limit paras [] 0

/-- Paragraph groups of the chunker. -/
def chunkGroups (limit : Nat) (paras : List Str) : List (List Str) :=
  chunkGroupsAux limit paras [] 0

/-- The emitted chunks are the joined paragraph groups. -/
theorem chunkParasAux_eq_map (limit : Nat) :
    ∀ (paras cur : List Str) (curLen : Nat),
      chunkParasAux limit paras cur curLen
        = (chunkGroupsAux limit paras cur curLen).map joinSep := by
  intro paras
  induction paras with
  | nil =>
    intro cur curLen
    by_cases h : cur.isEmpty <;> simp [chunkParasAux, chunkGroupsAux, h]
  | cons p rest ih =>
    intro cur curLen
    by_cases h : limit < curLen + p.length + 2 && !cur.isEmpty <;>
      simp [chunkParasAux, chunkGroupsAux, h, ih]

/-- Every paragraph group emitted by the chunker loop is nonempty. -/
theorem chunkGroupsAux_ne_nil (limit : Nat) :
    ∀ (paras cur : List Str) (curLen : Nat) (g : List Str),
      g ∈ chunkGroupsAux limit paras cur curLen → g ≠ [] := by
  intro paras
  induction paras with
  | nil =>
    intro cur curLen g hg
    cases cur with
    | nil => simp [chunkGroupsAux] at hg
    | cons a as =>
      simp [chunkGroupsAux] at hg
      subst hg
      simp
  | cons p rest ih =>
    intro cur curLen g hg
    by_cases h : limit < curLen + p.length + 2 && !cur.isEmpty
    · simp only [chunkGroupsAux, h, if_true, List.mem_cons] at hg
      rcases hg with hg | hg
      · subst hg
        intro hnil
        subst hnil
        simp at h
      · exact ih [p] (p.length + 2) g hg
    · simp only [chunkGroupsAux, h, if_false, Bool.false_eq_true] at hg
      exact ih (cur ++ [p]) (curLen + p.length + 2) g hg

/-- Flattening the paragraph groups recovers the input paragraphs. -/
theorem chunkGroupsAux_flatten (limit : Nat) :
    ∀ (paras cur : List Str) (curLen : Nat),
      (chunkGroupsAux limit paras cur curLen).flatten = cur ++ paras := by
  intro paras
  induction paras with
  | nil =>
    intro cur curLen
    cases cur with
    | nil => simp [chunkGroupsAux]
    | cons a as => simp [chunkGroupsAux]
  | cons p rest ih =>
    intro cur curLen
    by_cases h : limit < curLen + p.length + 2 && !cur.isEmpty
    · simp [chunkGroupsAux, h, ih]
    · simp [chunkGroupsAux, h, ih]

/-- A nonempty list of nonempty lists flattens to a nonempty list. -/
theorem flatten_ne_nil (gs : List (List Str)) (hne : gs ≠ [])
    (h : ∀ g ∈ gs, g ≠ []) : gs.flatten ≠ [] := by
  cases gs with
  | nil => exact absurd rfl hne
  | cons g gs' =>
    have hg : g ≠ [] := h g (by simp)
    cases g with
    | nil => exact absurd rfl hg
    | cons c cs => simp

/-- Joining joined groups equals joining the flattened groups. -/
theorem joinSep_map_joinSep (gs : List (List Str)) (h : ∀ g ∈ gs, g ≠ []) :
    joinSep (gs.map joinSep) = joinSep gs.flatten := by
  induction gs with
  | nil => rfl
  | cons g gs' ih =>
    cases gs' with
    | nil => simp [joinSep]
    | cons g' gs'' =>
      have hmap : ((g' :: gs'').map joinSep : List Str) ≠ [] := by simp
      have htail : ∀ x ∈ g' :: gs'', x ≠ [] := fun x hx => h x (by simp [hx])
      have hflat : (g' :: gs'').flatten ≠ [] :=
        flatten_ne_nil _ (by simp) htail
      rw [List.map_cons, joinSep_cons _ _ hmap, ih htail,
        show ((g :: g' :: gs'').flatten : List Str) = g ++ (g' :: gs'').flatten from rfl,
        joinSep_append g ((g' :: gs'').flatten) (h g (by simp)) hflat]

/-- Chunk round-trip: rejoining the chunks reproduces the joined paragraphs
(for every limit, in particular the reference limit 1000). -/
theorem chunk_roundtrip (L : Nat) (P : List Str) :
    joinSep (chunkParagraphs L P) = joinSep P := by
  unfold chunkParagraphs
  rw [chunkParasAux_eq_map,
    joinSep_map_joinSep _ (fun g hg => chunkGroupsAux_ne_nil L P [] 0 g hg)]
  rw [chunkGroupsAux_flatten]
  rfl

/-- Total character count of a paragraph list. -/
def sumLen (l : List Str) : Nat := (l.map List.length).sum

/-- Length of a joined nonempty list: paragraph characters plus a two-char
separator between consecutive paragraphs. -/
theorem joinSep_length (l : List Str) (h : l ≠ []) :
    (joinSep l).length = sumLen l + 2 * (l.length - 1) := by
  induction l with
  | nil => exact absurd rfl h
  | cons c cs ih =>
    cases cs with
    | nil => simp [joinSep, sumLen]
    | cons d ds =>
      have hcs : (d :: ds : List Str) ≠ [] := by simp
      rw [joinSep_cons _ _ hcs]
      have := ih hcs
      simp only [List.length_append, this, sumLen, List.map_cons, List.sum_cons,
        List.length_cons, sep, str]
      simp [sumLen]
      omega

/-- A chunk group satisfying the running-length invariant is either within
the limit or an oversized singleton. -/
theorem groupOk (L : Nat) (cur : List Str) (hne : cur ≠ [])
    (hinv : 2 ≤ cur.length → sumLen cur + 2 * cur.length ≤ L + 2) :
    (joinSep cur).length ≤ L ∨ ∃ p, cur = [p] ∧ L < p.length := by
  cases cur with
  | nil => exact absurd rfl hne
  | cons p rest =>
    cases rest with
    | nil =>
      rcases Nat.lt_or_ge L p.length with hlt | hge
      · exact Or.inr ⟨p, rfl, hlt⟩
      · left
        simpa [joinSep, sumLen] using hge
    | cons q qs =>
      left
      have h2 : 2 ≤ (p :: q :: qs : List Str).length := by simp
      have := hinv h2
      rw [joinSep_length _ (by simp)]
      simp only [List.length_cons] at this ⊢
      omega

/-- Every group emitted by the chunker loop, under the loop invariant, is
within the limit or an oversized singleton. -/
theorem chunkGroupsAux_bound (L : Nat) :
    ∀ (paras cur : List Str) (curLen : Nat),
      curLen = sumLen cur + 2 * cur.length →
      (2 ≤ cur.length → curLen ≤ L) →
      ∀ g ∈ chunkGroupsAux L paras cur curLen,
        (joinSep g).length ≤ L ∨ ∃ p, g = [p] ∧ L < p.length := by
  intro paras
  induction paras with
  | nil =>
    intro cur curLen hlen hbound g hg
    cases cur with
    | nil => simp [chunkGroupsAux] at hg
    | cons a as =>
      simp [chunkGroupsAux] at hg
      subst hg
      exact groupOk L _ (by simp) (fun h2 => by omega)
  | cons p rest ih =>
    intro cur curLen hlen hbound g hg
    by_cases h : L < curLen + p.length + 2 && !cur.isEmpty
    · simp only [chunkGroupsAux, h, if_true, List.mem_cons] at hg
      have hcur : cur ≠ [] := by
        intro hnil
        subst hnil
        simp at h
      rcases hg with hg | hg
      · subst hg
        exact groupOk L _ hcur (fun h2 => by have := hbound h2; omega)
      · exact ih [p] (p.length + 2) (by simp [sumLen]) (by simp) g hg
    · simp only [chunkGroupsAux, h, if_false, Bool.false_eq_true] at hg
      refine ih (cur ++ [p]) (curLen + p.length + 2) ?_ ?_ g hg
      · simp [sumLen, hlen]
        omega
      · intro h2
        have hcur : cur ≠ [] := by
          intro hnil
          subst hnil
          simp at h2
        have : ¬ (L < curLen + p.length + 2) := by
          intro hlt
          apply h
          cases cur with
          | nil => exact absurd rfl hcur
          | cons a as => simp [hlt]
        omega

/-- Size bound of the chunker at the top level. -/
theorem chunkGroups_bound (L : Nat) (P : List Str) :
    ∀ g ∈ chunkGroups L P,
      (joinSep g).length ≤ L ∨ ∃ p, g = [p] ∧ L < p.length :=
  chunkGroupsAux_bound L P [] 0 (by simp [sumLen]) (by simp)

/-!
## Python `str.replace` (left-to-right, non-overlapping) and the
`PARAGRAPH_BREAK` marker of BaseSiteParser (site_parsers.py lines 49-97).
-/

/-- Python `s.replace(p, r)`: scan left to right, replacing each
non-overlapping occurrence of `p` by `r`.  (For empty `p` the scan just
copies; the sources only call it with nonempty patterns.) -/
def replaceList (p r : Str) : Str → Str
  | [] => []
  | c :: cs =>
    if !p.isEmpty && p.isPrefixOf (c :: cs) then
      r ++ replaceList p r (cs.drop (p.length - 1))
    else
      c :: replaceList p r cs
termination_by s => s.length
decreasing_by
  · simp only [List.length_drop, List.length_cons]
    omega
  · simp

/-- The marker substituted for paragraph breaks before translation. -/
def pbMarker : Str := str " PARAGRAPH_BREAK "

/-- A prefix of the output of `replaceList p r` whose characters avoid `r`
is a prefix of the input. -/
theorem replaceList_prefix_transfer (p r : Str) (hr : r ≠ []) :
    ∀ (n : Nat) (s t : Str), s.length ≤ n → (∀ c ∈ t, c ∉ r) →
      t <+: replaceList p r s → t <+: s := by
  intro n
  induction n with
  | zero =>
    intro s t hs _ hpre
    have : s = [] := List.length_eq_zero.mp (Nat.le_zero.mp hs)
    subst this
    simpa [replaceList] using hpre
  | succ n ih =>
    intro s t hs hdisj hpre
    cases s with
    | nil => simpa [replaceList] using hpre
    | cons c cs =>
      by_cases hcond : (!p.isEmpty && p.isPrefixOf (c :: cs)) = true
      · rw [replaceList, if_pos hcond] at hpre
        cases t with
        | nil => exact List.nil_prefix
        | cons th tt =>
          cases r with
          | nil => exact absurd rfl hr
          | cons rh rt =>
            rw [List.cons_append] at hpre
            have hth : th = rh := (List.cons_prefix_cons.mp hpre).1
            have : th ∈ (rh :: rt : Str) := by simp [hth]
            exact absurd this (hdisj th (by simp))
      · rw [replaceList, if_neg hcond] at hpre
        cases t with
        | nil => exact List.nil_prefix
        | cons th tt =>
          have h1 := List.cons_prefix_cons.mp hpre
          have h2 : tt <+: cs :=
            ih cs tt (by simpa using hs) (fun x hx => hdisj x (by simp [hx])) h1.2
          exact List.cons_prefix_cons.mpr ⟨h1.1, h2⟩

/-- When the replacement's characters do not occur in the pattern, the
output of `replaceList p r` contains no occurrence of `p`. -/
theorem replaceList_not_infix (p r : Str) (hp : p ≠ []) (hr : r ≠ [])
    (hdisj : ∀ c ∈ r, c ∉ p) :
    ∀ (n : Nat) (s : Str), s.length ≤ n →
      ∀ a b : Str, a ++ p ++ b ≠ replaceList p r s := by
  have hdisj' : ∀ c ∈ p, c ∉ r := fun c hcp hcr => hdisj c hcr hcp
  intro n
  induction n with
  | zero =>
    intro s hs a b heq
    have : s = [] := List.length_eq_zero.mp (Nat.le_zero.mp hs)
    subst this
    simp [replaceList] at heq
    exact hp heq.2.1
  | succ n ih =>
    intro s hs a b heq
    cases s with
    | nil =>
      simp [replaceList] at heq
      exact hp heq.2.1
    | cons c cs =>
      have hcs : cs.length ≤ n := by simpa using hs
      have hdrop : (cs.drop (p.length - 1)).length ≤ n := by
        simp only [List.length_drop]
        omega
      by_cases hcond : (!p.isEmpty && p.isPrefixOf (c :: cs)) = true
      · rw [replaceList, if_pos hcond] at heq
        rw [List.append_assoc] at heq
        rcases List.append_eq_append_iff.mp heq with ⟨w, hw1, hw2⟩ | ⟨w, hw1, hw2⟩
        · -- r = a ++ w and p ++ b = w ++ rest
          rcases List.append_eq_append_iff.mp hw2 with ⟨u, hu1, hu2⟩ | ⟨u, hu1, hu2⟩
          · -- w = p ++ u : p sits inside r
            cases p with
            | nil => exact hp rfl
            | cons ph pt =>
              have hmem : ph ∈ r := by
                rw [hw1, hu1]
                simp
              exact hdisj ph hmem (by simp)
          · -- p = w ++ u and rest = u ++ b
            cases w with
            | nil =>
              simp only [List.nil_append] at hu1
              subst hu1
              exact ih (cs.drop (p.length - 1)) hdrop [] b (by simpa using hu2.symm)
            | cons wh wt =>
              have hmemr : wh ∈ r := by
                rw [hw1]
                simp
              have hmemp : wh ∈ p := by
                rw [hu1]
                simp
              exact hdisj wh hmemr hmemp
        · -- a = r ++ w and rest = w ++ p ++ b
          exact ih (cs.drop (p.length - 1)) hdrop w b
            (by rw [← List.append_assoc] at hw2; exact hw2.symm)
      · rw [replaceList, if_neg hcond] at heq
        cases a with
        | nil =>
          simp only [List.nil_append] at heq
          cases p with
          | nil => exact hp rfl
          | cons ph pt =>
            rw [List.cons_append] at heq
            injection heq with hph htail
            have hpt : pt <+: replaceList (ph :: pt) r cs := ⟨b, htail⟩
            have hptcs : pt <+: cs :=
              replaceList_prefix_transfer (ph :: pt) r hr cs.length cs pt le_rfl
                (fun x hx => hdisj' x (List.mem_cons_of_mem _ hx)) hpt
            have hpref : (ph :: pt) <+: (c :: cs) := by
              rw [hph]
              exact List.cons_prefix_cons.mpr ⟨rfl, hptcs⟩
            apply hcond
            simp only [Bool.and_eq_true, Bool.not_eq_true']
            refine ⟨by simp, List.isPrefixOf_iff_prefix.mpr hpref⟩
        | cons ah at' =>
          rw [List.cons_append, List.cons_append] at heq
          injection heq with hah htail
          exact ih cs hcs at' b htail

/-!
## BaseSiteParser translation wrappers (site_parsers.py lines 49-97)

`hasTranslator` models `self.translator is not None`, `enabled` the
`translation_config["enabled"]` flag, and `provider` the underlying
translator call (total: the `except` fallback to the original text is the
caller's concern and providers here are pure functions).
-/

/-- BaseSiteParser.translate_text: marker-protect paragraph breaks, call
the provider, restore the breaks. -/
def parserTranslateText (hasTranslator enabled : Bool) (provider : Str → Str)
    (text : Str) : Str :=
  if !hasTranslator || !enabled || text.isEmpty then text
  else replaceList pbMarker sep (provider (replaceList sep pbMarker text))

/-- BaseSiteParser.batch_translate: the same marker protection applied
elementwise around a batch provider call. -/
def parserBatchTranslate (hasTranslator enabled : Bool)
    (providerBatch : List Str → List Str) (texts : List Str) : List Str :=
  if !hasTranslator || !enabled || texts.isEmpty then texts
  else (providerBatch (texts.map (replaceList sep pbMarker))).map
    (replaceList pbMarker sep)

/-!
## Chapter content extraction (site_parsers.py)

All four parser classes share, verbatim, the body-extraction block of
`parse_chapter_content` (paragraph collection, chunking, translation,
defaulting); it is factored here as `assembleChapterContent`.  Only the
title extraction and the content-container selector differ per class.
-/

/-- Translation configuration keys used by parse_chapter_content. -/
structure TransCfg where
  enabled : Bool
  translateContent : Bool
deriving DecidableEq

/-- Translation disabled (the default parser configuration). -/
def cfgOff : TransCfg := ⟨false, true⟩

/-- A content container node: texts of its `<p>` children plus its own
full text. -/
structure HonbunElem where
  pTexts : List Str
  rawText : Str
deriving DecidableEq

/-- `[x.strip() for x in ts if x.strip()]`. -/
def stripNonEmpty (ts : List Str) : List Str :=
  ts.filterMap (fun t => let s := pyStrip t; if s.isEmpty then none else some s)

/-- Paragraph collection: stripped nonempty `<p>` texts, else stripped
nonempty lines of the raw text. -/
def paragraphsOf (e : HonbunElem) : List Str :=
  let ps := stripNonEmpty e.pTexts
  if ps.isEmpty then stripNonEmpty (e.rawText.splitOn '\n') else ps

/-- The ChapterContent record returned by parse_chapter_content. -/
structure ChapterContent where
  title : Str
  url : Str
  content : Str
  chunks : List Str
deriving DecidableEq

/-- The shared body of parse_chapter_content: chunk the paragraphs,
optionally translate title and chunks, and apply the `or`-defaults. -/
def assembleChapterContent (cfg : TransCfg) (tr : Str → Str) (title0 : Str)
    (url : Str) (honbun : Option HonbunElem) : ChapterContent :=
  let cc : Str × List Str :=
    match honbun with
    | none => ([], [])
    | some e =>
      let paras := paragraphsOf e
      (joinSep paras, chunkParagraphs 1000 paras)
  let title := if cfg.enabled then tr title0 else title0
  let cc2 : Str × List Str :=
    if cfg.enabled && !cc.2.isEmpty && cfg.translateContent then
      let tchunks := cc.2.map tr
      (joinSep tchunks, tchunks)
    else cc
  { title := title
    url := url
    content := if cc2.1.isEmpty then str "No content available" else cc2.1
    chunks := if cc2.2.isEmpty then [str "No content available"] else cc2.2 }

/-- Document handle for NcodeParser.parse_chapter_content (also
Novel18Parser and, with its own selectors, MobileParser). -/
structure ChapterDoc where
  subtitleText : Option Str
  honbun : Option HonbunElem
deriving DecidableEq

/-- NcodeParser.parse_chapter_content (site_parsers.py lines 229-301). -/
def ncodeParseChapterContent (cfg : TransCfg) (tr : Str → Str)
    (doc : ChapterDoc) (url : Str) : ChapterContent :=
  let title := match doc.subtitleText with
    | some t => pyStrip t
    | none => str "Unknown Chapter"
  assembleChapterContent cfg tr title url doc.honbun

/-- Document handle for HamelnParser.parse_chapter_content. -/
structure HamelnChapterDoc where
  titleLinkText : Option Str
  titleSpanText : Option Str
  novelContent : Option HonbunElem
  honbun : Option HonbunElem
deriving DecidableEq

/-- On-page title extraction of HamelnParser.parse_chapter_content. -/
def hamelnPageTitle (doc : HamelnChapterDoc) : Str :=
  match doc.titleLinkText with
  | some t => pyStrip t
  | none =>
    match doc.titleSpanText with
    | some t => pyStrip t
    | none => str "Unknown Chapter"

/-- HamelnParser.parse_chapter_content (site_parsers.py lines 709-792):
the only variant accepting a chapter-title hint; a truthy (nonempty) hint
is used directly, bypassing on-page extraction. -/
def hamelnParseChapterContent (cfg : TransCfg) (tr : Str → Str)
    (doc : HamelnChapterDoc) (url : Str) (chapterTitle : Option Str) :
    ChapterContent :=
  let title :=
    match chapterTitle with
    | some t => if t.isEmpty then hamelnPageTitle doc else t
    | none => hamelnPageTitle doc
  let contentElem :=
    match doc.novelContent with
    | some e => some e
    | none => doc.honbun
  assembleChapterContent cfg tr title url contentElem

/-!
## Translation provider (translator.py)

Provider calls are modelled as `Nat → Str → Except Unit Str` (attempt
number and input; `Except.error` models a raised exception).  Sleeps are
dropped: they do not affect values.
-/

/-- The guard `not text or text.isspace()` of DeepTranslator.translate_text. -/
def translateGuard (t : Str) : Bool :=
  t.isEmpty || (!t.isEmpty && t.all isPySpace)

/-- `text[i:i+w] for i in range(0, len(text), w)`: fixed-size windows. -/
def pySlices (w : Nat) (t : Str) : List Str :=
  if t.isEmpty || w = 0 then []
  else t.take w :: pySlices w (t.drop w)
termination_by t.length
decreasing_by
  rename_i h
  simp only [Bool.or_eq_true, List.isEmpty_eq_true, decide_eq_true_eq] at h
  push_neg at h
  cases t with
  | nil => exact absurd rfl h.1
  | cons c cs =>
    simp only [List.length_drop, List.length_cons]
    omega

/-- Sequential effectful map over a list: translate each window in order,
aborting on the first raised exception (the per-attempt window loop). -/
def exceptMapM (g : Str → Except Unit Str) : List Str → Except Unit (List Str)
  | [] => .ok []
  | x :: xs =>
    match g x with
    | .error e => .error e
    | .ok y =>
      match exceptMapM g xs with
      | .error e => .error e
      | .ok ys => .ok (y :: ys)

/-- One attempt of DeepTranslator.translate_text (the try-block): texts
over 5000 characters are translated in fixed 4000-character windows and
concatenated with `"".join`. -/
def attemptTranslate (g : Nat → Str → Except Unit Str) (k : Nat) (text : Str) :
    Except Unit Str :=
  if 5000 < text.length then
    (exceptMapM (g k) (pySlices 4000 text)).map List.flatten
  else g k text

/-- The retry loop of DeepTranslator.translate_text: at most
`maxRetries + 1` attempts; after exhausting them, return the original
text.  Returns the result together with the number of attempts made. -/
def retryTranslate (attempt : Nat → Except Unit Str) (text : Str) :
    Nat → Nat → Str × Nat
  | _, 0 => (text, 0)
  | k, rem + 1 =>
    match attempt k with
    | .ok res => (res, 1)
    | .error _ =>
      let p := retryTranslate attempt text (k + 1) rem
      (p.1, p.2 + 1)

/-- DeepTranslator.translate_text (translator.py lines 115-143), with the
attempt count exposed. -/
def deepTranslateText (g : Nat → Str → Except Unit Str) (maxRetries : Nat)
    (text : Str) : Str × Nat :=
  if translateGuard text then (text, 0)
  else retryTranslate (fun k => attemptTranslate g k text) text 0 (maxRetries + 1)

/-- DeepTranslator.batch_translate, sequential path
(`concurrent_requests <= 1`, translator.py lines 150-156). -/
def deepBatchTranslateSeq (g : Nat → Str → Except Unit Str) (maxRetries : Nat)
    (texts : List Str) : List Str :=
  if texts.isEmpty then texts
  else texts.map (fun t => (deepTranslateText g maxRetries t).1)

/-- DeepTranslator.batch_translate, concurrent path (translator.py lines
164-183): a pre-sized slot list (`results = [None] * len(texts)`) filled,
in an arbitrary completion order, with the worker result for each index. -/
def fillByCompletion (f : Str → Str) (texts : List Str) (order : List Nat) :
    List (Option Str) :=
  order.foldl (fun acc i => acc.set i (some (f (texts.getD i (str "")))))
    (List.replicate texts.length none)

/-- A provider whose every call raises (the always-failing stub). -/
def failProvider : Nat → Str → Except Unit Str := fun _ _ => .error ()

/-- A provider that always succeeds with the pure translation `f`. -/
def okProvider (f : Str → Str) : Nat → Str → Except Unit Str :=
  fun _ s => .ok (f s)

/-- The translator objects produced by get_translator. -/
inductive Translator
  | dummy
  | deep (service : Str)
deriving DecidableEq

/-- DummyTranslator.batch_translate: returns the inputs unchanged. -/
def dummyBatchTranslate (texts : List Str) : List Str := texts

/-- DummyTranslator.translate_text: returns the input unchanged. -/
def dummyTranslateText (text : Str) : Str := text

/-- get_translator (translator.py lines 198-208): `available` models the
module flag DEEP_TRANSLATOR_AVAILABLE. -/
def getTranslator (available : Bool) (service : Str) : Translator :=
  if !available then .dummy
  else if service.map Char.toLower = str "none" then .dummy
  else .deep service

/-!
## Novel info extraction (site_parsers.py parse_novel_info, four classes)

`bt` stands for the parser-level `self.batch_translate`.  Python's
`translated[k]` indexing is modelled totally with `List.getD`
(batch_translate returns same-length lists in the sources).
-/

/-- A metadata value: string, list of strings, or boolean flag. -/
inductive MetaVal
  | s (v : Str)
  | l (v : List Str)
  | b (v : Bool)
deriving DecidableEq

/-- The NovelInfo record returned by parse_novel_info. -/
structure NovelInfo where
  title : Str
  author : Str
  description : Str
  url : Str
  metadata : List (Str × MetaVal)
deriving DecidableEq

/-- Document handle for NcodeParser.parse_novel_info. -/
structure NcodeInfoDoc where
  novelTitle : Option Str
  novelWriter : Option Str
  novelEx : Option Str
  novelGenre : Option Str
  keywordTexts : List Str
deriving DecidableEq

/-- NcodeParser.parse_novel_info (site_parsers.py lines 140-197). -/
def ncodeParseNovelInfo (enabled : Bool) (bt : List Str → List Str)
    (doc : NcodeInfoDoc) (url : Str) : NovelInfo :=
  let title := match doc.novelTitle with
    | some t => pyStrip t
    | none => str "Unknown Title"
  let author := match doc.novelWriter with
    | some t => replaceList (str "作者：") [] (pyStrip t)
    | none => str "Unknown Author"
  let description := match doc.novelEx with
    | some t => pyStrip t
    | none => str "No description available"
  let genre := doc.novelGenre.map pyStrip
  let keywords := doc.keywordTexts.map pyStrip
  let hasKw := !doc.keywordTexts.isEmpty
  if enabled then
    let toTr := [title, author, description]
      ++ (match genre with | some g => [g] | none => [])
      ++ (if hasKw then keywords else [])
    let td := bt toTr
    let genreCount := match genre with | some _ => 1 | none => 0
    { title := td.getD 0 []
      author := td.getD 1 []
      description := td.getD 2 []
      url := url
      metadata :=
        (match genre with
          | some _ => [(str "genre", MetaVal.s (td.getD 3 []))]
          | none => [])
        ++ (if hasKw then
              [(str "keywords", MetaVal.l ((td.drop (3 + genreCount)).take keywords.length))]
            else []) }
  else
    { title := title
      author := author
      description := description
      url := url
      metadata :=
        (match genre with
          | some g => [(str "genre", MetaVal.s g)]
          | none => [])
        ++ (if hasKw then [(str "keywords", MetaVal.l keywords)] else []) }

/-- Python's substring test `needle in hay`. -/
def containsSub (needle : Str) : Str → Bool
  | [] => needle.isEmpty
  | c :: cs => needle.isPrefixOf (c :: cs) || containsSub needle cs

/-- Document handle for Novel18Parser.parse_novel_info. -/
structure Novel18InfoDoc where
  novelTitle : Option Str
  novelWriter : Option Str
  novelEx : Option Str
  contents1 : Option Str
  keywordTexts : List Str
deriving DecidableEq

/-- Novel18Parser.parse_novel_info (site_parsers.py lines 307-357). -/
def novel18ParseNovelInfo (enabled : Bool) (bt : List Str → List Str)
    (doc : Novel18InfoDoc) (url : Str) : NovelInfo :=
  let title := match doc.novelTitle with
    | some t => pyStrip t
    | none => str "Unknown Title"
  let author := match doc.novelWriter with
    | some t => replaceList (str "作者：") [] (pyStrip t)
    | none => str "Unknown Author"
  let description := match doc.novelEx with
    | some t => pyStrip t
    | none => str "No description available"
  let ageRestricted :=
    match doc.contents1 with
    | some t => containsSub (str "18禁") t
    | none => false
  let keywords := doc.keywordTexts.map pyStrip
  let hasKw := !doc.keywordTexts.isEmpty
  let metaBase :=
    (if ageRestricted then [(str "age_restricted", MetaVal.b true)] else [])
  if enabled then
    let toTr := [title, author, description] ++ (if hasKw then keywords else [])
    let td := bt toTr
    { title := td.getD 0 []
      author := td.getD 1 []
      description := td.getD 2 []
      url := url
      metadata := metaBase
        ++ (if hasKw then
              [(str "keywords", MetaVal.l ((td.drop 3).take keywords.length))]
            else []) }
  else
    { title := title
      author := author
      description := description
      url := url
      metadata := metaBase
        ++ (if hasKw then [(str "keywords", MetaVal.l keywords)] else []) }

/-- Document handle for MobileParser.parse_novel_info. -/
structure MobileInfoDoc where
  h1 : Option Str
  novelWriter : Option Str
  novelIntroduction : Option Str
deriving DecidableEq

/-- MobileParser.parse_novel_info (site_parsers.py lines 466-493):
metadata is always empty. -/
def mobileParseNovelInfo (enabled : Bool) (bt : List Str → List Str)
    (doc : MobileInfoDoc) (url : Str) : NovelInfo :=
  let title := match doc.h1 with
    | some t => pyStrip t
    | none => str "Unknown Title"
  let author := match doc.novelWriter with
    | some t => replaceList (str "作者：") [] (pyStrip t)
    | none => str "Unknown Author"
  let description := match doc.novelIntroduction with
    | some t => pyStrip t
    | none => str "No description available"
  if enabled then
    let td := bt [title, author, description]
    { title := td.getD 0 [], author := td.getD 1 [],
      description := td.getD 2 [], url := url, metadata := [] }
  else
    { title := title, author := author, description := description,
      url := url, metadata := [] }

/-- Document handle for HamelnParser.parse_novel_info. -/
structure HamelnInfoDoc where
  nameSpan : Option Str
  authorSpan : Option Str
  ssDescription : Option Str
  keywordSpans : List Str
deriving DecidableEq

/-- HamelnParser.parse_novel_info (site_parsers.py lines 600-643). -/
def hamelnParseNovelInfo (enabled : Bool) (bt : List Str → List Str)
    (doc : HamelnInfoDoc) (url : Str) : NovelInfo :=
  let title := match doc.nameSpan with
    | some t => pyStrip t
    | none => str "Unknown Title"
  let author := match doc.authorSpan with
    | some t => pyStrip t
    | none => str "Unknown Author"
  let description := match doc.ssDescription with
    | some t => pyStrip t
    | none => str "No description available"
  let tags := doc.keywordSpans.map pyStrip
  let hasTags := !doc.keywordSpans.isEmpty
  if enabled then
    let toTr := [title, author, description] ++ (if hasTags then tags else [])
    let td := bt toTr
    { title := td.getD 0 []
      author := td.getD 1 []
      description := td.getD 2 []
      url := url
      metadata :=
        if hasTags then
          [(str "tags", MetaVal.l ((td.drop 3).take tags.length))]
        else [] }
  else
    { title := title
      author := author
      description := description
      url := url
      metadata := if hasTags then [(str "tags", MetaVal.l tags)] else [] }

/-- An Ncode info document in which no selector matches. -/
def emptyNcodeInfoDoc : NcodeInfoDoc := ⟨none, none, none, none, []⟩

/-- A Novel18 info document in which no selector matches. -/
def emptyNovel18InfoDoc : Novel18InfoDoc := ⟨none, none, none, none, []⟩

/-- A Mobile info document in which no selector matches. -/
def emptyMobileInfoDoc : MobileInfoDoc := ⟨none, none, none⟩

/-- A Hameln info document in which no selector matches. -/
def emptyHamelnInfoDoc : HamelnInfoDoc := ⟨none, none, none, []⟩

/-!
## HamelnParser.parse_chapter_list (site_parsers.py lines 645-707)

Tables under `div.ss` either carry an arc header (`tr td strong`) — in
which case the whole table is skipped after updating the running arc —
or chapter rows (`tr.bgcolor3, tr.bgcolor2`), enumerated from 1 **per
table**.
-/

/-- A chapter link: its text and optional href attribute. -/
structure HLink where
  text : Str
  href : Option Str
deriving DecidableEq

/-- A chapter row: optional link and optional `<time datetime>` value. -/
structure HRow where
  link : Option HLink
  dateTime : Option Str
deriving DecidableEq

/-- A `div.ss table`: arc-header text if present, else its chapter rows. -/
structure HTable where
  arcStrong : Option Str
  rows : List HRow
deriving DecidableEq

/-- A ChapterRef as produced by HamelnParser.parse_chapter_list. -/
structure HChapter where
  index : Nat
  title : Str
  chapterNum : Str
  url : Option Str
  arc : Str
  publishDate : Option Str
deriving DecidableEq

/-- `re.search(r'(\d+)\.html$', href)`: the trailing digit run before a
final `.html`, else the 1-based row index. -/
def hamelnChapterNum (href : Option Str) (index : Nat) : Str :=
  match href with
  | none => str (toString index)
  | some h =>
    if (str ".html").isSuffixOf h then
      let ds := ((h.take (h.length - 5)).reverse.takeWhile Char.isDigit).reverse
      if ds.isEmpty then str (toString index) else ds
    else str (toString index)

/-- The row loop: enumerate all selected rows from `index`, emitting a
chapter only for rows that contain a link. -/
def hamelnRowsGo (arc : Str) : List HRow → Nat → List HChapter
  | [], _ => []
  | row :: rest, index =>
    match row.link with
    | some link =>
      { index := index
        title := pyStrip link.text
        chapterNum := hamelnChapterNum link.href index
        url := none
        arc := arc
        publishDate := row.dateTime } :: hamelnRowsGo arc rest (index + 1)
    | none => hamelnRowsGo arc rest (index + 1)

/-- The table loop: an arc-header table updates the running arc and is
skipped; a chapter table contributes its rows, enumerated from 1. -/
def hamelnTablesGo : List HTable → Str → List HChapter
  | [], _ => []
  | t :: ts, arc =>
    match t.arcStrong with
    | some a => hamelnTablesGo ts (pyStrip a)
    | none => hamelnRowsGo arc t.rows 1 ++ hamelnTablesGo ts arc

/-- Arc titles in document order (the `arc_titles` list). -/
def collectArcTitles : List HTable → List Str
  | [] => []
  | t :: ts =>
    match t.arcStrong with
    | some a => pyStrip a :: collectArcTitles ts
    | none => collectArcTitles ts

/-- `dict(zip(keys, vals))[k]`: the association for `k`, later bindings
overriding earlier ones. -/
def dictLookup (l : List (Str × Str)) (k : Str) : Option Str :=
  (l.reverse.find? (fun kv => kv.1 = k)).map (fun kv => kv.2)

/-- Positional title reassignment
(`for i, t in enumerate(translated_titles): chapters[i]['title'] = t`). -/
def setTitles : List HChapter → List Str → List HChapter
  | chs, [] => chs
  | [], _ => []
  | c :: cs, t :: ts => { c with title := t } :: setTitles cs ts

/-- HamelnParser.parse_chapter_list: walk the tables with a running arc,
then (only when translation is enabled) rewrite arcs through a
translation dictionary and titles positionally.  `bt` is the parser-level
batch_translate. -/
def hamelnParseChapterList (cfg : TransCfg) (bt : List Str → List Str)
    (tables : List HTable) : List HChapter :=
  let chapters := hamelnTablesGo tables (str "")
  if cfg.enabled then
    let arcTitles := collectArcTitles tables
    let chapters :=
      if arcTitles.isEmpty then chapters
      else
        let arcMap := arcTitles.zip (bt arcTitles)
        chapters.map (fun c =>
          match dictLookup arcMap c.arc with
          | some ta => { c with arc := ta }
          | none => c)
    let chTitles := (hamelnTablesGo tables (str "")).map (fun c => c.title)
    if chTitles.isEmpty then chapters else setTitles chapters (bt chTitles)
  else chapters

/-!
## Site dispatch (site_parsers.py get_parser; main.py get_chapter_content)
-/

/-- The parser classes instantiated by get_parser (yomou shares
NcodeParser). -/
inductive SiteParserKind
  | ncode
  | novel18
  | mnlt
  | hameln
deriving DecidableEq

/-- get_parser (site_parsers.py lines 796-820): site-type dispatch with
NcodeParser as the default. -/
def getParser (siteType : Str) : SiteParserKind :=
  if siteType = str "ncode" then .ncode
  else if siteType = str "novel18" then .novel18
  else if siteType = str "mnlt" then .mnlt
  else if siteType = str "yomou" then .ncode
  else if siteType = str "hameln" then .hameln
  else .ncode

/-- A raised Python exception class. -/
inductive PyError
  | typeError
deriving DecidableEq

/-- SyosetuScraper.get_chapter_content (main.py lines 196-198) always
calls `self.parser.parse_chapter_content(soup, chapter_url, chapter_title)`
with three arguments.  Only HamelnParser.parse_chapter_content takes the
`chapter_title` parameter; NcodeParser, Novel18Parser and MobileParser
define `parse_chapter_content(self, soup, url)`, so for them the call
raises `TypeError` before any parsing happens (the document is never
inspected, hence the single Hameln-shaped document argument here). -/
def callParseChapterContent (kind : SiteParserKind) (cfg : TransCfg)
    (tr : Str → Str) (doc : HamelnChapterDoc) (url : Str)
    (chapterTitle : Option Str) : Except PyError ChapterContent :=
  match kind with
  | .hameln => .ok (hamelnParseChapterContent cfg tr doc url chapterTitle)
  | _ => .error .typeError

/-!
## Supporting lemmas about paragraphs and chunks
-/

/-- Every string produced by `stripNonEmpty` is nonempty. -/
theorem stripNonEmpty_mem (ts : List Str) :
    ∀ s ∈ stripNonEmpty ts, s ≠ [] := by
  intro s hs
  rcases List.mem_filterMap.mp hs with ⟨t, _, heq⟩
  by_cases h : (pyStrip t).isEmpty
  · simp [h] at heq
  · simp [h] at heq
    subst heq
    simpa [List.isEmpty_iff] using h

/-- Every extracted paragraph is nonempty. -/
theorem paragraphsOf_mem (e : HonbunElem) :
    ∀ s ∈ paragraphsOf e, s ≠ [] := by
  intro s hs
  unfold paragraphsOf at hs
  by_cases h : (stripNonEmpty e.pTexts).isEmpty
  · simp only [h, if_true] at hs
    exact stripNonEmpty_mem _ s hs
  · simp only [h, if_false, Bool.false_eq_true] at hs
    exact stripNonEmpty_mem _ s hs

/-- The chunker loop with a nonempty current chunk emits at least one
chunk. -/
theorem chunkParasAux_ne_nil (L : Nat) :
    ∀ (paras cur : List Str) (curLen : Nat), cur ≠ [] →
      chunkParasAux L paras cur curLen ≠ [] := by
  intro paras
  induction paras with
  | nil =>
    intro cur curLen hcur
    cases cur with
    | nil => exact absurd rfl hcur
    | cons a as => simp [chunkParasAux]
  | cons p rest ih =>
    intro cur curLen hcur
    by_cases h : L < curLen + p.length + 2 && !cur.isEmpty
    · simp [chunkParasAux, h]
    · simp only [chunkParasAux, h, if_false, Bool.false_eq_true]
      exact ih (cur ++ [p]) (curLen + p.length + 2) (by simp)

/-- The chunker emits at least one chunk for nonempty input. -/
theorem chunkParagraphs_ne_nil (L : Nat) (paras : List Str)
    (h : paras ≠ []) : chunkParagraphs L paras ≠ [] := by
  cases paras with
  | nil => exact absurd rfl h
  | cons p rest =>
    unfold chunkParagraphs
    rw [chunkParasAux]
    have hc : (L < 0 + p.length + 2 && !([] : List Str).isEmpty) = false := by
      simp
    rw [hc]
    simp only [Bool.false_eq_true, if_false, List.nil_append, Nat.zero_add]
    exact chunkParasAux_ne_nil L rest [p] (p.length + 2) (by simp)

/-- Joining a nonempty group of nonempty strings is nonempty. -/
theorem joinSep_ne_nil (g : List Str) (hg : g ≠ [])
    (hx : ∀ x ∈ g, x ≠ []) : joinSep g ≠ [] := by
  cases g with
  | nil => exact absurd rfl hg
  | cons x rest =>
    cases rest with
    | nil => simpa [joinSep] using hx x (by simp)
    | cons y ys =>
      have hxne : x ≠ [] := hx x (by simp)
      cases x with
      | nil => exact absurd rfl hxne
      | cons c cs => simp [joinSep_cons _ _ (by simp : (y :: ys : List Str) ≠ [])]

/-- Every chunk emitted for nonempty paragraphs is itself nonempty. -/
theorem chunkParagraphs_mem_ne_nil (L : Nat) (paras : List Str)
    (hps : ∀ s ∈ paras, s ≠ []) :
    ∀ c ∈ chunkParagraphs L paras, c ≠ [] := by
  intro c hc
  unfold chunkParagraphs at hc
  rw [chunkParasAux_eq_map] at hc
  rcases List.mem_map.mp hc with ⟨g, hg, hgc⟩
  subst hgc
  refine joinSep_ne_nil g (chunkGroupsAux_ne_nil L paras [] 0 g hg) ?_
  intro x hxg
  have hxfl : x ∈ (chunkGroupsAux L paras [] 0).flatten :=
    List.mem_flatten.mpr ⟨g, hg, hxg⟩
  rw [chunkGroupsAux_flatten] at hxfl
  exact hps x (by simpa using hxfl)

/-- The shared chapter body always satisfies the chunk/content
round-trip, provided the translation function preserves nonemptiness. -/
theorem assemble_roundtrip (cfg : TransCfg) (tr : Str → Str)
    (title0 url : Str) (honbun : Option HonbunElem)
    (htr : ∀ s : Str, s ≠ [] → tr s ≠ []) :
    joinSep (assembleChapterContent cfg tr title0 url honbun).chunks
      = (assembleChapterContent cfg tr title0 url honbun).content := by
  cases honbun with
  | none => simp [assembleChapterContent, joinSep]
  | some e =>
    have hps := paragraphsOf_mem e
    simp only [assembleChapterContent]
    generalize hP : paragraphsOf e = paras at hps
    cases paras with
    | nil => simp [chunkParagraphs, chunkParasAux, joinSep]
    | cons p rest =>
      have hchne : chunkParagraphs 1000 (p :: rest) ≠ [] :=
        chunkParagraphs_ne_nil 1000 _ (by simp)
      have hchel : ∀ c ∈ chunkParagraphs 1000 (p :: rest), c ≠ [] :=
        chunkParagraphs_mem_ne_nil 1000 _ hps
      by_cases hcond :
          (cfg.enabled && !(chunkParagraphs 1000 (p :: rest)).isEmpty
            && cfg.translateContent) = true
      · simp only [hcond, if_true]
        have htne : (chunkParagraphs 1000 (p :: rest)).map tr ≠ [] := by
          intro hnil
          exact hchne (List.map_eq_nil_iff.mp hnil)
        have htel : ∀ x ∈ (chunkParagraphs 1000 (p :: rest)).map tr, x ≠ [] := by
          intro x hx
          rcases List.mem_map.mp hx with ⟨c, hc, hcx⟩
          subst hcx
          exact htr c (hchel c hc)
        have hjne : joinSep ((chunkParagraphs 1000 (p :: rest)).map tr) ≠ [] :=
          joinSep_ne_nil _ htne htel
        simp only [List.isEmpty_eq_true]
        rw [if_neg htne, if_neg hjne]
      · simp only [hcond, if_false, Bool.false_eq_true]
        have hjoin : joinSep (chunkParagraphs 1000 (p :: rest))
            = joinSep (p :: rest) := chunk_roundtrip 1000 (p :: rest)
        have hjp : joinSep (p :: rest) ≠ [] :=
          joinSep_ne_nil _ (by simp) hps
        simp only [List.isEmpty_eq_true]
        rw [if_neg hchne, if_neg hjp]
        exact hjoin

/-!
## Claim theorems
-/

/-- A Hameln chapter-list fixture: an arc-header table, a table of three
linked chapter rows, a second arc-header table, a table of two linked
chapter rows. -/
def c1Fixture : List HTable :=
  [⟨some (str "Arc One"), []⟩,
   ⟨none, [⟨some ⟨str "c1", some (str "/novel/1.html")⟩, none⟩,
           ⟨some ⟨str "c2", some (str "/novel/2.html")⟩, none⟩,
           ⟨some ⟨str "c3", some (str "/novel/3.html")⟩, none⟩]⟩,
   ⟨some (str "Arc Two"), []⟩,
   ⟨none, [⟨some ⟨str "c4", some (str "/novel/4.html")⟩, none⟩,
           ⟨some ⟨str "c5", some (str "/novel/5.html")⟩, none⟩]⟩]

/-- Claim C1: the spec demands `index` fields exactly `1..N`, but
HamelnParser.parse_chapter_list enumerates rows from 1 separately inside
each table: on the two-arc fixture the indices come out `[1,2,3,1,2]`,
not `[1,2,3,4,5]`. -/
theorem hameln_index_restarts_per_table :
    ((hamelnParseChapterList cfgOff id c1Fixture).map (fun c => c.index)
        = [1, 2, 3, 1, 2])
    ∧ ((hamelnParseChapterList cfgOff id c1Fixture).map (fun c => c.index)
        ≠ List.range' 1 (hamelnParseChapterList cfgOff id c1Fixture).length) := by
  constructor
  · rfl
  · decide

/-- Claim C2: joining the chunks with the blank-line separator reproduces
the joined paragraphs, for every paragraph sequence and limit `L ≥ 1`;
consequently for every ChapterContent built by parse_chapter_content
(over any configuration and any nonemptiness-preserving translation),
rejoining `chunks` equals `content` byte-for-byte. -/
theorem chunk_join_roundtrip :
    (∀ (L : Nat) (P : List Str), 1 ≤ L →
      joinSep (chunkParagraphs L P) = joinSep P)
    ∧ (∀ (cfg : TransCfg) (tr : Str → Str) (doc : ChapterDoc) (url : Str),
        (∀ s : Str, s ≠ [] → tr s ≠ []) →
        joinSep (ncodeParseChapterContent cfg tr doc url).chunks
          = (ncodeParseChapterContent cfg tr doc url).content) :=
  ⟨fun L P _ => chunk_roundtrip L P,
   fun cfg tr doc url htr => assemble_roundtrip cfg tr _ url doc.honbun htr⟩

/-- A two-paragraph document for the C2 witness. -/
def c2WitnessDoc : ChapterDoc :=
  ⟨some (str "T"), some ⟨[str "aaa", str "bb"], str ""⟩⟩

/-- Witness for C2 at concrete inputs. -/
theorem chunk_join_roundtrip_witness :
    ((1 : Nat) ≤ 1000
      ∧ joinSep (chunkParagraphs 1000 [str "ab", str "c"])
          = joinSep [str "ab", str "c"])
    ∧ ((∀ s : Str, s ≠ [] → id s ≠ [])
      ∧ joinSep (ncodeParseChapterContent cfgOff id c2WitnessDoc (str "u")).chunks
          = (ncodeParseChapterContent cfgOff id c2WitnessDoc (str "u")).content) :=
  ⟨⟨by decide, chunk_join_roundtrip.1 1000 [str "ab", str "c"] (by decide)⟩,
   ⟨fun _ h => h,
    chunk_join_roundtrip.2 cfgOff id c2WitnessDoc (str "u") (fun _ h => h)⟩⟩

/-- Claim C3: the emitted chunks are the joined paragraph groups, and
every group is within the limit or is an oversized single paragraph
(holds for every limit, in particular the reference limit 1000). -/
theorem chunk_size_bound :
    (∀ (L : Nat) (P : List Str),
      chunkParagraphs L P = (chunkGroups L P).map joinSep)
    ∧ (∀ (L : Nat) (P : List Str) (g : List Str), g ∈ chunkGroups L P →
        (joinSep g).length ≤ L ∨ ∃ p, g = [p] ∧ L < p.length) :=
  ⟨fun L P => chunkParasAux_eq_map L P [] 0,
   fun L P g hg => chunkGroups_bound L P g hg⟩

/-- Witness for C3 at a concrete input. -/
theorem chunk_size_bound_witness :
    ([str "aa"] ∈ chunkGroups 5 [str "aa"])
    ∧ ((joinSep [str "aa"]).length ≤ 5
        ∨ ∃ p, ([str "aa"] : List Str) = [p] ∧ 5 < p.length) :=
  ⟨by decide, chunk_size_bound.2 5 [str "aa"] [str "aa"] (by decide)⟩

/-- Claim C6: on the arc fixture — an arc header, three linked chapter
rows, a second arc header, two linked chapter rows — the first three
chapters carry the first arc title and the last two the second. -/
theorem hameln_arc_carry_forward (a1 a2 t1 t2 t3 t4 t5 : Str)
    (h1 h2 h3 h4 h5 d1 d2 d3 d4 d5 : Option Str) :
    (hamelnParseChapterList cfgOff id
      [⟨some a1, []⟩,
       ⟨none, [⟨some ⟨t1, h1⟩, d1⟩, ⟨some ⟨t2, h2⟩, d2⟩, ⟨some ⟨t3, h3⟩, d3⟩]⟩,
       ⟨some a2, []⟩,
       ⟨none, [⟨some ⟨t4, h4⟩, d4⟩, ⟨some ⟨t5, h5⟩, d5⟩]⟩]).map (fun c => c.arc)
    = [pyStrip a1, pyStrip a1, pyStrip a1, pyStrip a2, pyStrip a2] := rfl

/-- Claim C7: on documents where no selector matches, every
parse_novel_info variant returns the literal defaults, the url verbatim,
and empty metadata (yomou shares NcodeParser via get_parser). -/
theorem parse_novel_info_defaults (url : Str) :
    ncodeParseNovelInfo false id emptyNcodeInfoDoc url
      = ⟨str "Unknown Title", str "Unknown Author",
         str "No description available", url, []⟩
    ∧ novel18ParseNovelInfo false id emptyNovel18InfoDoc url
      = ⟨str "Unknown Title", str "Unknown Author",
         str "No description available", url, []⟩
    ∧ mobileParseNovelInfo false id emptyMobileInfoDoc url
      = ⟨str "Unknown Title", str "Unknown Author",
         str "No description available", url, []⟩
    ∧ hamelnParseNovelInfo false id emptyHamelnInfoDoc url
      = ⟨str "Unknown Title", str "Unknown Author",
         str "No description available", url, []⟩
    ∧ getParser (str "yomou") = SiteParserKind.ncode :=
  ⟨rfl, rfl, rfl, rfl, rfl⟩

/-- A Hameln chapter page whose on-page title differs from the hint. -/
def c8HamelnDoc : HamelnChapterDoc :=
  ⟨none, some (str "On-Page Title"), none, none⟩

/-- Claim C8: main.py's get_chapter_content passes the title hint as a
third positional argument for every site type, but only
HamelnParser.parse_chapter_content accepts it: the ncode, novel18, and
mnlt variants raise TypeError, while the Hameln variant returns the hint
as the title even though the page carries a different on-page title. -/
theorem title_hint_precedence :
    callParseChapterContent .ncode cfgOff id c8HamelnDoc (str "u")
        (some (str "X")) = .error .typeError
    ∧ callParseChapterContent .novel18 cfgOff id c8HamelnDoc (str "u")
        (some (str "X")) = .error .typeError
    ∧ callParseChapterContent .mnlt cfgOff id c8HamelnDoc (str "u")
        (some (str "X")) = .error .typeError
    ∧ hamelnPageTitle c8HamelnDoc = str "On-Page Title"
    ∧ (callParseChapterContent .hameln cfgOff id c8HamelnDoc (str "u")
        (some (str "X"))).map (fun c => c.title) = .ok (str "X") :=
  ⟨rfl, rfl, rfl, rfl, rfl⟩

/-!
## Order preservation of the concurrent batch fill
-/

/-- The slot-fill fold preserves the slot-list length. -/
theorem foldl_set_length (v : Nat → Option Str) :
    ∀ (order : List Nat) (acc : List (Option Str)),
      (order.foldl (fun acc i => acc.set i (v i)) acc).length = acc.length := by
  intro order
  induction order with
  | nil => intro acc; rfl
  | cons i rest ih =>
    intro acc
    rw [List.foldl_cons, ih, List.length_set]

/-- Slot `j` of the fold holds `v j` iff `j` was ever written, since every
write to slot `j` writes the same value. -/
theorem foldl_set_getElem (v : Nat → Option Str) :
    ∀ (order : List Nat) (acc : List (Option Str)) (j : Nat),
      (order.foldl (fun acc i => acc.set i (v i)) acc)[j]?
        = if j ∈ order ∧ j < acc.length then some (v j) else acc[j]? := by
  intro order
  induction order with
  | nil =>
    intro acc j
    simp
  | cons i rest ih =>
    intro acc j
    rw [List.foldl_cons, ih, List.length_set, List.getElem?_set]
    by_cases hj : j < acc.length
    · by_cases hmem : j ∈ rest
      · rw [if_pos ⟨hmem, hj⟩, if_pos ⟨List.mem_cons_of_mem i hmem, hj⟩]
      · rw [if_neg (fun h => hmem h.1)]
        by_cases hij : i = j
        · subst hij
          rw [if_pos rfl, if_pos hj, if_pos ⟨List.mem_cons_self i rest, hj⟩]
        · have hnotc : ¬ (j ∈ i :: rest ∧ j < acc.length) := by
            rintro ⟨hc, -⟩
            rcases List.mem_cons.mp hc with h1 | h1
            · exact hij h1.symm
            · exact hmem h1
          rw [if_neg hij, if_neg hnotc]
    · have hr : ¬ (j ∈ rest ∧ j < acc.length) := fun h => hj h.2
      have hc : ¬ (j ∈ i :: rest ∧ j < acc.length) := fun h => hj h.2
      rw [if_neg hr, if_neg hc]
      by_cases hij : i = j
      · subst hij
        rw [if_pos rfl, if_neg hj]
        exact (List.getElem?_eq_none (Nat.le_of_not_lt hj)).symm
      · rw [if_neg hij]

/-- When the completion order is a permutation of the indices, the filled
slot list is exactly the in-order worker results. -/
theorem fillByCompletion_eq (f : Str → Str) (texts : List Str)
    (order : List Nat) (hperm : order.Perm (List.range texts.length)) :
    fillByCompletion f texts order = texts.map (fun t => some (f t)) := by
  apply List.ext_getElem?
  intro j
  unfold fillByCompletion
  rw [foldl_set_getElem]
  by_cases hj : j < texts.length
  · have hmem : j ∈ order := hperm.mem_iff.mpr (List.mem_range.mpr hj)
    rw [if_pos ⟨hmem, by simpa using hj⟩]
    rw [List.getElem?_map, List.getElem?_eq_getElem hj]
    simp only [List.getD, Option.map_some', Option.some.injEq,
      List.get?_eq_getElem?]
    rw [List.getElem?_eq_getElem hj]
    rfl
  · have hmem : j ∉ order := fun hc =>
      hj (List.mem_range.mp (hperm.mem_iff.mp hc))
    rw [if_neg (fun hc => hmem hc.1)]
    rw [List.getElem?_eq_none (by simpa using hj),
      List.getElem?_eq_none (by simpa [List.length_replicate] using hj)]

/-- Claim C4: the concurrent batch fill writes the result for input `i`
into slot `i`, so for any completion order that is a permutation of the
indices the output has the same length and order as the input; and
`service="none"` selects the pass-through DummyTranslator, whose
batch_translate is the identity. -/
theorem batch_order_preservation :
    (∀ (f : Str → Str) (texts : List Str) (order : List Nat),
        order.Perm (List.range texts.length) →
        (fillByCompletion f texts order).length = texts.length
        ∧ fillByCompletion f texts order = texts.map (fun t => some (f t)))
    ∧ getTranslator true (str "none") = Translator.dummy
    ∧ (∀ texts : List Str, dummyBatchTranslate texts = texts) := by
  refine ⟨fun f texts order hperm => ⟨?_, fillByCompletion_eq f texts order hperm⟩,
    rfl, fun texts => rfl⟩
  unfold fillByCompletion
  rw [foldl_set_length, List.length_replicate]

/-- Witness for C4 at a concrete out-of-order completion. -/
theorem batch_order_preservation_witness :
    (([1, 0] : List Nat).Perm (List.range (List.length [str "a", str "b"])))
    ∧ fillByCompletion id [str "a", str "b"] [1, 0]
        = [str "a", str "b"].map (fun t => some (id t)) :=
  ⟨by decide,
   (batch_order_preservation.1 id [str "a", str "b"] [1, 0] (by decide)).2⟩

/-!
## Retry exhaustion and oversize windowing
-/

/-- With the always-raising provider, every attempt raises. -/
theorem attemptTranslate_fail (text : Str) (k : Nat) :
    attemptTranslate failProvider k text = .error () := by
  unfold attemptTranslate
  by_cases h : 5000 < text.length
  · rw [if_pos h]
    cases text with
    | nil => simp at h
    | cons c cs =>
      rw [pySlices]
      simp only [List.isEmpty_cons, Bool.false_or, decide_eq_true_eq,
        OfNat.ofNat_ne_zero, if_false]
      rfl
  · rw [if_neg h]
    rfl

/-- The retry loop under an always-raising attempt makes exactly the
budgeted number of attempts and falls back to the original text. -/
theorem retryTranslate_fail (text : Str) :
    ∀ (rem k : Nat),
      retryTranslate (fun k => attemptTranslate failProvider k text) text k rem
        = (text, rem) := by
  intro rem
  induction rem with
  | zero => intro k; rfl
  | succ n ih =>
    intro k
    rw [retryTranslate, attemptTranslate_fail]
    simp [ih (k + 1)]

/-- Claim C5: with a provider whose every call raises, translate_text
makes exactly `maxRetries + 1` attempts and returns the text unchanged,
and batch_translate (both the sequential and the concurrent path) returns
the original list; no exception escapes (all functions are total). -/
theorem degrade_not_fail :
    (∀ (maxRetries : Nat) (text : Str), translateGuard text = false →
        deepTranslateText failProvider maxRetries text = (text, maxRetries + 1))
    ∧ (∀ (maxRetries : Nat) (texts : List Str),
        deepBatchTranslateSeq failProvider maxRetries texts = texts)
    ∧ (∀ (maxRetries : Nat) (texts : List Str) (order : List Nat),
        order.Perm (List.range texts.length) →
        fillByCompletion
          (fun t => (deepTranslateText failProvider maxRetries t).1)
          texts order = texts.map some) := by
  have hsingle : ∀ (maxRetries : Nat) (t : Str),
      (deepTranslateText failProvider maxRetries t).1 = t := by
    intro maxRetries t
    unfold deepTranslateText
    by_cases h : translateGuard t
    · rw [if_pos h]
    · rw [if_neg h, retryTranslate_fail]
  refine ⟨fun maxRetries text hg => ?_, fun maxRetries texts => ?_,
    fun maxRetries texts order hperm => ?_⟩
  · unfold deepTranslateText
    rw [hg]
    simp only [Bool.false_eq_true, if_false]
    exact retryTranslate_fail text (maxRetries + 1) 0
  · unfold deepBatchTranslateSeq
    by_cases h : texts.isEmpty
    · rw [if_pos h]
    · rw [if_neg h]
      calc texts.map (fun t => (deepTranslateText failProvider maxRetries t).1)
          = texts.map (fun t => t) :=
            List.map_congr_left (fun t _ => hsingle maxRetries t)
        _ = texts := List.map_id' texts
  · rw [fillByCompletion_eq _ texts order hperm]
    exact List.map_congr_left (fun t _ => by rw [hsingle])

/-- Witness for C5 at a concrete text and batch. -/
theorem degrade_not_fail_witness :
    (translateGuard (str "a") = false
      ∧ deepTranslateText failProvider 3 (str "a") = (str "a", 4))
    ∧ (([0] : List Nat).Perm (List.range (List.length [str "a"]))
      ∧ fillByCompletion
          (fun t => (deepTranslateText failProvider 3 t).1) [str "a"] [0]
          = [str "a"].map some) :=
  ⟨⟨by decide, degrade_not_fail.1 3 (str "a") (by decide)⟩,
   ⟨by decide, degrade_not_fail.2.2 3 [str "a"] [0] (by decide)⟩⟩

/-- Effectful map under an always-succeeding provider is the pure map. -/
theorem exceptMapM_ok (f : Str → Str) (k : Nat) :
    ∀ l : List Str, exceptMapM (okProvider f k) l = .ok (l.map f) := by
  intro l
  induction l with
  | nil => rfl
  | cons x xs ih => rw [exceptMapM, ih]; rfl

/-- The fixed windows tile the text. -/
theorem pySlices_flatten (w : Nat) (hw : w ≠ 0) :
    ∀ (n : Nat) (t : Str), t.length ≤ n → (pySlices w t).flatten = t := by
  intro n
  induction n with
  | zero =>
    intro t ht
    have : t = [] := List.length_eq_zero.mp (Nat.le_zero.mp ht)
    subst this
    rw [pySlices]
    simp
  | succ n ih =>
    intro t ht
    rw [pySlices]
    by_cases he : t.isEmpty
    · rw [if_pos (by simp [he])]
      simp [List.isEmpty_iff.mp he]
    · rw [if_neg (by simp [he, hw])]
      have hne : t ≠ [] := by simpa [List.isEmpty_iff] using he
      have : (t.drop w).length ≤ n := by
        rw [List.length_drop]
        cases t with
        | nil => exact absurd rfl hne
        | cons c cs =>
          simp only [List.length_cons] at ht ⊢
          omega
      rw [List.flatten_cons, ih (t.drop w) this, List.take_append_drop]

/-- Window `i` starts at offset `w * i` and has width (at most) `w`. -/
theorem pySlices_getD (w : Nat) (hw : w ≠ 0) :
    ∀ (n : Nat) (t : Str) (i : Nat), t.length ≤ n →
      i < (pySlices w t).length →
      (pySlices w t).getD i [] = (t.drop (w * i)).take w := by
  intro n
  induction n with
  | zero =>
    intro t i ht hi
    have : t = [] := List.length_eq_zero.mp (Nat.le_zero.mp ht)
    subst this
    rw [pySlices] at hi
    simp at hi
  | succ n ih =>
    intro t i ht hi
    rw [pySlices] at hi ⊢
    by_cases he : t.isEmpty
    · rw [if_pos (by simp [he])] at hi
      simp at hi
    · have hcond : ¬ (t.isEmpty || decide (w = 0)) = true := by simp [he, hw]
      rw [if_neg hcond] at hi ⊢
      cases i with
      | zero => simp
      | succ i' =>
        have hne : t ≠ [] := by simpa [List.isEmpty_iff] using he
        have hlen : (t.drop w).length ≤ n := by
          rw [List.length_drop]
          cases t with
          | nil => exact absurd rfl hne
          | cons c cs =>
            simp only [List.length_cons] at ht ⊢
            omega
        have hi' : i' < (pySlices w (t.drop w)).length := by
          simpa using hi
        have := ih (t.drop w) i' hlen hi'
        simp only [List.getD_cons_succ]
        rw [this, List.drop_drop]
        congr 2
        ring

/-- Claim C9: for texts over 5000 characters (and reaching the provider),
translate_text translates the consecutive 4000-character windows
independently, in one attempt, and concatenates the results; the windows
start at offsets 0, 4000, 8000, … and tile the text exactly. -/
theorem oversize_window_split (f : Str → Str) (maxRetries : Nat) (text : Str)
    (hlen : 5000 < text.length) (hg : translateGuard text = false) :
    deepTranslateText (okProvider f) maxRetries text
      = (((pySlices 4000 text).map f).flatten, 1)
    ∧ (∀ i, i < (pySlices 4000 text).length →
        (pySlices 4000 text).getD i [] = (text.drop (4000 * i)).take 4000)
    ∧ (pySlices 4000 text).flatten = text := by
  refine ⟨?_, fun i hi => pySlices_getD 4000 (by simp) text.length text i le_rfl hi,
    pySlices_flatten 4000 (by simp) text.length text le_rfl⟩
  unfold deepTranslateText
  rw [hg]
  simp only [Bool.false_eq_true, if_false]
  rw [retryTranslate]
  have hat : attemptTranslate (okProvider f) 0 text
      = .ok (((pySlices 4000 text).map f).flatten) := by
    unfold attemptTranslate
    rw [if_pos hlen, exceptMapM_ok f 0]
    rfl
  rw [hat]

/-- Witness for C9 at a 5001-character text. -/
theorem oversize_window_split_witness :
    (5000 < (List.replicate 5001 'a').length
      ∧ translateGuard (List.replicate 5001 'a') = false)
    ∧ deepTranslateText (okProvider id) 3 (List.replicate 5001 'a')
        = (((pySlices 4000 (List.replicate 5001 'a')).map id).flatten, 1) :=
  ⟨⟨by rw [List.length_replicate]; omega, by
      simp only [translateGuard, Bool.or_eq_false_iff, Bool.and_eq_false_iff]
      refine ⟨by simp, Or.inr ?_⟩
      rw [List.all_eq_false]
      exact ⟨'a', List.mem_replicate.mpr ⟨by omega, rfl⟩, by decide⟩⟩,
   (oversize_window_split id 3 (List.replicate 5001 'a')
      (by rw [List.length_replicate]; omega)
      (by
        simp only [translateGuard, Bool.or_eq_false_iff, Bool.and_eq_false_iff]
        refine ⟨by simp, Or.inr ?_⟩
        rw [List.all_eq_false]
        exact ⟨'a', List.mem_replicate.mpr ⟨by omega, rfl⟩, by decide⟩)).1⟩

/-!
## The PARAGRAPH_BREAK marker round-trip
-/

/-- The restoring replacement never leaves a marker occurrence in its
output (its replacement `'\n\n'` shares no character with the marker). -/
theorem marker_not_infix_restore (s a b : Str) :
    a ++ pbMarker ++ b ≠ replaceList pbMarker sep s :=
  replaceList_not_infix pbMarker sep (by decide) (by decide) (by decide)
    s.length s le_rfl a b

/-- Claim C10: the parser-level wrappers replace `'\n\n'` by
`' PARAGRAPH_BREAK '` before the provider call and the marker by
`'\n\n'` after it; hence even under the pass-through provider, any text
containing the literal marker maps to a different text — the wrapper is
the identity only on marker-free texts. -/
theorem paragraph_marker_wrappers :
    (∀ (g : Str → Str) (text : Str), text ≠ [] →
        parserTranslateText true true g text
          = replaceList pbMarker sep (g (replaceList sep pbMarker text)))
    ∧ (∀ (gb : List Str → List Str) (texts : List Str), texts ≠ [] →
        parserBatchTranslate true true gb texts
          = (gb (texts.map (replaceList sep pbMarker))).map
              (replaceList pbMarker sep))
    ∧ (∀ text : Str, pbMarker <:+: text →
        parserTranslateText true true id text ≠ text) := by
  refine ⟨fun g text htext => ?_, fun gb texts htexts => ?_,
    fun text hinf heq => ?_⟩
  · unfold parserTranslateText
    rw [if_neg (by simp [htext])]
  · unfold parserBatchTranslate
    rw [if_neg (by simp [htexts])]
  · rcases hinf with ⟨a, b, hab⟩
    have htext : text ≠ [] := by
      intro hnil
      rw [hnil] at hab
      have := List.append_eq_nil.mp hab
      have := List.append_eq_nil.mp this.1
      exact (by decide : pbMarker ≠ []) this.2
    rw [parserTranslateText, if_neg (by simp [htext])] at heq
    exact marker_not_infix_restore
      (id (replaceList sep pbMarker text)) a b (by rw [hab, heq])

/-- Witness for C10: the marker itself is changed by the pass-through
round-trip. -/
theorem paragraph_marker_wrappers_witness :
    (pbMarker ≠ []
      ∧ parserTranslateText true true id pbMarker
          = replaceList pbMarker sep (id (replaceList sep pbMarker pbMarker)))
    ∧ (([pbMarker] : List Str) ≠ []
      ∧ parserBatchTranslate true true id [pbMarker]
          = (id ([pbMarker].map (replaceList sep pbMarker))).map
              (replaceList pbMarker sep))
    ∧ (pbMarker <:+: pbMarker
      ∧ parserTranslateText true true id pbMarker ≠ pbMarker) :=
  ⟨⟨by decide, paragraph_marker_wrappers.1 id pbMarker (by decide)⟩,
   ⟨by decide, paragraph_marker_wrappers.2.1 id [pbMarker] (by decide)⟩,
   ⟨⟨[], [], by simp⟩,
    paragraph_marker_wrappers.2.2 pbMarker ⟨[], [], by simp⟩⟩⟩

end Syosetu
